import Mathlib

/-!
# Verification of the TorchDR adaptive-bandwidth affinity core

Shallow embedding of `src/torchdr/affinity/knn_normalized.py` and
`src/torchdr/diffusion_embedding/phate.py`.

Modelling conventions:
* A distance matrix on `n` points is a function `Fin n → Fin n → ℚ`
  (floating-point inputs are rationals; the ideal-real semantics of the
  kernel arithmetic is modelled in `ℝ`).
* The helpers `kmin`, `logsumexp_red`, `sum_red`, `matrix_transpose` live in
  `torchdr.utils`, outside the given sources; where a claim depends on their
  behaviour they are modelled from the spec, as marked in their doc comments.
* `wrap_vectors` broadcasting (a bandwidth vector against a matrix) is
  modelled by indexing: entry `(i, j)` of `sigma * matrix_transpose sigma`
  is `σ i * σ j`.
-/

namespace TorchDR

/-- Error raised when the requested neighbour index `K` is out of range
for a matrix with `n` columns. -/
inductive InvalidKError where
  | invalidK (K : ℤ) (n : ℕ)
deriving DecidableEq, Repr

deriving instance DecidableEq for Except

/-- Row `i` of a matrix, as a list of its `n` entries in column order. -/
def rowList {n : ℕ} (C : Fin n → Fin n → ℚ) (i : Fin n) : List ℚ :=
  List.ofFn (fun j => C i j)

/-- Modelled from the spec: the `k_min(C, k, axis)` primitive of
`torchdr.utils` (not under the given sources).  For each row it returns the
`k` smallest entries in ascending order, duplicates and self-distance
included, and fails with `InvalidKError` when `K ≤ 0` or `K` exceeds the
number of columns (spec sections 4.1 and 7: never silently clamped). -/
def kmin {n : ℕ} (C : Fin n → Fin n → ℚ) (K : ℤ) :
    Except InvalidKError (Fin n → List ℚ) :=
  if 1 ≤ K ∧ K ≤ (n : ℤ) then
    .ok (fun i => ((rowList C i).insertionSort (· ≤ ·)).take K.toNat)
  else
    .error (.invalidK K n)

/-- The fitted bandwidth `sigma_`: the code lines
`minK_values, _ = kmin(C, k=self.K, dim=1)` followed by
`self.sigma_ = minK_values[:, -1]` (the last of the `K` smallest values of
each row), identical in `SelfTuningAffinity._compute_log_affinity` and
`MAGICAffinity._compute_affinity`. -/
def sigmaHat {n : ℕ} (C : Fin n → Fin n → ℚ) (K : ℤ) :
    Except InvalidKError (Fin n → ℚ) :=
  (kmin C K).map (fun rows i => (rows i).getLastD 0)

/-- Reference definition, from the spec: the K-th smallest entry of a list
(1-indexed, duplicates included) is the entry at index `K-1` of its
ascending sort. -/
def kthSmallest (l : List ℚ) (K : ℕ) : ℚ :=
  (l.insertionSort (· ≤ ·)).getD (K - 1) 0

theorem rowList_length {n : ℕ} (C : Fin n → Fin n → ℚ) (i : Fin n) :
    (rowList C i).length = n := by
  simp [rowList]

theorem take_getLastD {α : Type} (d : α) (l : List α) (k : ℕ)
    (h1 : 1 ≤ k) (h2 : k ≤ l.length) :
    (l.take k).getLastD d = l.getD (k - 1) d := by
  induction l generalizing k with
  | nil => simp at h2; omega
  | cons a t ih =>
    match k, h1 with
    | 1, _ => simp
    | (k' + 2), _ =>
      have ht : 1 ≤ k' + 1 := by omega
      have ht2 : k' + 1 ≤ t.length := by simpa using h2
      have hrec := ih (k' + 1) ht ht2
      have hidx : k' + 1 - 1 = k' := by omega
      rw [hidx] at hrec
      have hgoal : (a :: t).getD (k' + 2 - 1) d = t.getD k' d := by
        have : k' + 2 - 1 = k' + 1 := by omega
        rw [this, List.getD_cons_succ]
      rw [List.take_succ_cons, hgoal, ← hrec]
      have hne : t.take (k' + 1) ≠ [] := by
        have : (t.take (k' + 1)).length = k' + 1 := by
          simp [List.length_take]; omega
        intro hcon
        rw [hcon] at this
        simp at this
      cases hq : t.take (k' + 1) with
      | nil => exact absurd hq hne
      | cons b u => simp [hq]

theorem sigmaHat_eq_kthSmallest {n : ℕ} (C : Fin n → Fin n → ℚ) (K : ℤ)
    (h1 : 1 ≤ K) (h2 : K ≤ (n : ℤ)) :
    sigmaHat C K = .ok (fun i => kthSmallest (rowList C i) K.toNat) := by
  unfold sigmaHat kmin
  rw [if_pos ⟨h1, h2⟩]
  simp only [Except.map]
  congr 1
  funext i
  unfold kthSmallest
  exact take_getLastD 0 _ K.toNat (by omega)
    (by rw [List.length_insertionSort, rowList_length]; omega)

/-! ## Kernels and normalizations (real-valued semantics)

The floating-point tensor arithmetic of the kernels is modelled by ideal
real numbers, hence this part of the development is noncomputable; the
bandwidth side above stays executable over `ℚ`. -/

noncomputable section Kernels

/-- Cast a rational distance matrix to its ideal-real semantics. -/
def toR {n : ℕ} (C : Fin n → Fin n → ℚ) : Fin n → Fin n → ℝ :=
  fun i j => (C i j : ℝ)

/-- Cast a rational bandwidth vector to reals. -/
def vecToR {n : ℕ} (σ : Fin n → ℚ) : Fin n → ℝ :=
  fun i => (σ i : ℝ)

/-- `matrix_transpose` from `torchdr.utils` on dense matrices. -/
def matrix_transpose {n : ℕ} (P : Fin n → Fin n → ℝ) : Fin n → Fin n → ℝ :=
  fun i j => P j i

/-- The source function `_log_SelfTuning(C, sigma)`: with `wrap_vectors`
broadcasting, `sigma_t = matrix_transpose(sigma)` and `-C / (sigma * sigma_t)`
has entry `(i, j)` equal to `-C[i,j] / (σ_i * σ_j)`. -/
def log_SelfTuning {n : ℕ} (C : Fin n → Fin n → ℝ) (σ : Fin n → ℝ) :
    Fin n → Fin n → ℝ :=
  fun i j => -C i j / (σ i * σ j)

/-- The source function `_log_MAGIC(C, sigma)`: `-C / sigma` with row-wise
broadcasting, entry `(i, j)` equal to `-C[i,j] / σ_i`. -/
def log_MAGIC {n : ℕ} (C : Fin n → Fin n → ℝ) (σ : Fin n → ℝ) :
    Fin n → Fin n → ℝ :=
  fun i j => -C i j / σ i

/-- Modelled from the spec: `sum_red(P, dim=1)` of `torchdr.utils`
(not under the given sources) is the row-sum reduction, broadcast back
along rows on division. -/
def sum_red {n : ℕ} (P : Fin n → Fin n → ℝ) (i : Fin n) : ℝ :=
  ∑ t, P i t

/-- The `normalization_dim` argument: axis `0`, axis `1`, or the joint
pair `(0, 1)` (the default). -/
inductive NormDim where
  | zero
  | one
  | joint
deriving DecidableEq, Repr

/-- Modelled from the spec: `logsumexp_red(M, dim)` of `torchdr.utils`
(not under the given sources) is the numerically stable log-sum-exp
reduction over the given axis or axis pair; the value returned here at
`(i, j)` is the term that broadcasting subtracts from entry `(i, j)`. -/
def logsumexp_red {n : ℕ} (M : Fin n → Fin n → ℝ) :
    NormDim → Fin n → Fin n → ℝ
  | .zero, _, j => Real.log (∑ t, Real.exp (M t j))
  | .one, i, _ => Real.log (∑ t, Real.exp (M i t))
  | .joint, _, _ => Real.log (∑ s, ∑ t, Real.exp (M s t))

/-- The raw self-tuning log-affinity of the fitted model, line
`log_affinity_matrix = _log_SelfTuning(C, self.sigma_)`. -/
def selfTuningRaw {n : ℕ} (C : Fin n → Fin n → ℚ) (σq : Fin n → ℚ) :
    Fin n → Fin n → ℝ :=
  log_SelfTuning (toR C) (vecToR σq)

/-- The fitted state of `SelfTuningAffinity`: the cached `sigma_`, the
cached `log_normalization_` (present when `normalization_dim` is not
`None`) and the returned log-affinity matrix. -/
structure SelfTuningFitted (n : ℕ) where
  sigma_ : Fin n → ℚ
  log_normalization_ : Option (Fin n → Fin n → ℝ)
  logAffinity : Fin n → Fin n → ℝ

/-- `SelfTuningAffinity._compute_log_affinity` on a distance matrix `C`:
compute `sigma_` by `kmin`, form the raw log-affinity, and when
`normalization_dim` is not `None` subtract the log-sum-exp reduction,
caching it as `log_normalization_`. -/
def selfTuningFit {n : ℕ} (C : Fin n → Fin n → ℚ) (K : ℤ)
    (dim? : Option NormDim) : Except InvalidKError (SelfTuningFitted n) :=
  (sigmaHat C K).map (fun σ =>
    let raw := selfTuningRaw C σ
    match dim? with
    | none => ⟨σ, none, raw⟩
    | some d =>
        ⟨σ, some (logsumexp_red raw d),
          fun i j => raw i j - logsumexp_red raw d i j⟩)

/-- `MAGICAffinity._compute_affinity` on a distance matrix `C`: compute
`sigma_` by `kmin`, exponentiate `_log_MAGIC`, average with the transpose,
then divide each row by its `sum_red`.  Returns the cached `sigma_`
together with the affinity matrix. -/
def magicFit {n : ℕ} (C : Fin n → Fin n → ℚ) (K : ℤ) :
    Except InvalidKError ((Fin n → ℚ) × (Fin n → Fin n → ℝ)) :=
  (sigmaHat C K).map (fun σ =>
    let A1 := fun i j => Real.exp (log_MAGIC (toR C) (vecToR σ) i j)
    let A2 := fun i j => (A1 i j + matrix_transpose A1 i j) / 2
    (σ, fun i j => A2 i j / sum_red A2 i))

/-! ## Reference (spec-side) definitions for the MAGIC steps -/

/-- Reference step 1, from the spec: `P[i,j] = exp(-C[i,j] / σ_i)`. -/
def magicKernelStep {n : ℕ} (C : Fin n → Fin n → ℝ) (σ : Fin n → ℝ) :
    Fin n → Fin n → ℝ :=
  fun i j => Real.exp (-C i j / σ i)

/-- Reference step 2, from the spec: `P ← (P + Pᵗ) / 2`. -/
def symmetrizeStep {n : ℕ} (P : Fin n → Fin n → ℝ) : Fin n → Fin n → ℝ :=
  fun i j => (P i j + P j i) / 2

/-- Reference step 3, from the spec: `P ← P / rowsum(P)`. -/
def rowNormalizeStep {n : ℕ} (P : Fin n → Fin n → ℝ) : Fin n → Fin n → ℝ :=
  fun i j => P i j / ∑ t, P i t

end Kernels

/-! ## Masked-diagonal model (IEEE infinities)

With `zero_diag=True` the diagonal of the distance matrix is masked to
`+∞` before any affinity step.  Distances are modelled by `WithTop ℝ`
(`⊤` = `+inf`) and log-affinities by `WithBot ℝ` (`⊥` = `-inf`), with the
IEEE conventions `-(+inf)/s = -inf` (for `s > 0`), `-inf - r = -inf` and
`exp(-inf) = 0`.  On finite entries these definitions agree with the
real-valued kernels above. -/

noncomputable section Masked

/-- Modelled from the spec: the `zero_diag=True` handling of
`Affinity._distance_matrix` (not under the given sources) masks the
diagonal of the distance matrix, setting the diagonal distance to `+∞`,
before bandwidth estimation, kernel evaluation and normalization. -/
def maskDiagonal {n : ℕ} (C : Fin n → Fin n → ℝ) :
    Fin n → Fin n → WithTop ℝ :=
  fun i j => if i = j then ⊤ else (C i j : WithTop ℝ)

/-- `-c / s` on a possibly-infinite distance `c`, for a positive
bandwidth `s`: finite entries divide as reals, `-(+inf)/s = -inf`. -/
def negDivE (c : WithTop ℝ) (s : ℝ) : WithBot ℝ :=
  match c with
  | none => ⊥
  | some x => ((-x / s : ℝ) : WithBot ℝ)

/-- `exp` on a possibly `-inf` log-affinity entry: `exp(-inf) = 0`. -/
def expE : WithBot ℝ → ℝ
  | none => 0
  | some x => Real.exp x

/-- Subtraction of a finite normalizer from a possibly `-inf` entry. -/
def subE (x : WithBot ℝ) (r : ℝ) : WithBot ℝ :=
  match x with
  | none => ⊥
  | some a => ((a - r : ℝ) : WithBot ℝ)

/-- `_log_SelfTuning` on a masked distance matrix. -/
def log_SelfTuningE {n : ℕ} (C : Fin n → Fin n → WithTop ℝ)
    (σ : Fin n → ℝ) : Fin n → Fin n → WithBot ℝ :=
  fun i j => negDivE (C i j) (σ i * σ j)

/-- `_log_MAGIC` on a masked distance matrix. -/
def log_MAGICE {n : ℕ} (C : Fin n → Fin n → WithTop ℝ)
    (σ : Fin n → ℝ) : Fin n → Fin n → WithBot ℝ :=
  fun i j => negDivE (C i j) (σ i)

/-- The linear-domain self-tuning affinity on a masked distance matrix
with joint `(0, 1)` normalization: exponentiate the normalized
log-affinity `logP - logsumexp(logP)`. -/
def selfTuningPE {n : ℕ} (C : Fin n → Fin n → WithTop ℝ) (σ : Fin n → ℝ) :
    Fin n → Fin n → ℝ :=
  fun i j =>
    expE (subE (log_SelfTuningE C σ i j)
      (Real.log (∑ s, ∑ t, expE (log_SelfTuningE C σ s t))))

/-- The final MAGIC affinity on a masked distance matrix: exponentiate,
symmetrize, row-normalize. -/
def magicPE {n : ℕ} (C : Fin n → Fin n → WithTop ℝ) (σ : Fin n → ℝ) :
    Fin n → Fin n → ℝ :=
  fun i j =>
    ((expE (log_MAGICE C σ i j) + expE (log_MAGICE C σ j i)) / 2) /
      ∑ t, (expE (log_MAGICE C σ i t) + expE (log_MAGICE C σ t i)) / 2

end Masked

/-! ## PHATE configuration layer -/

/-- Sparsity backend selector; the source uses the strings `"keops"` and
`"faiss"` (or `None`). -/
inductive Backend where
  | keops
  | faiss
deriving DecidableEq, Repr

/-- Arguments handed to the `NegPotentialAffinity` constructor (the
constructor itself is outside the given sources; only the passed
arguments matter here). -/
structure NegPotentialAffinityArgs where
  backend : Option Backend
  device : String
  eps : ℚ
  t : ℤ
  K : ℤ
deriving DecidableEq, Repr

/-- Arguments handed to the `NegativeCostAffinity` constructor. -/
structure NegativeCostAffinityArgs where
  backend : Option Backend
  device : String
deriving DecidableEq, Repr

/-- The parameters of `PHATE.__init__` (opaque dict/scheduler parameters
omitted; floats modelled as rationals). -/
structure PHATEParams where
  n_neighbors : ℤ
  n_components : ℤ
  t : ℤ
  eps : ℚ
  optimizer : String
  lr : ℚ
  min_grad_norm : ℚ
  max_iter : ℤ
  init : String
  init_scaling : ℚ
  device : String
  backend : Option Backend
  verbose : Bool
  check_interval : ℤ
deriving DecidableEq, Repr

/-- The default values of the `PHATE.__init__` signature (lines 60-79 of
`phate.py`): `n_neighbors=10, n_components=2, t=5, eps=1e-5,
optimizer="Adam", lr=1e0, min_grad_norm=1e-7, max_iter=1000, init="pca",
init_scaling=1.0, device="auto", backend=None, verbose=False,
check_interval=50`. -/
def phateDefaults : PHATEParams :=
  ⟨10, 2, 5, 1 / 100000, "Adam", 1, 1 / 10000000, 1000, "pca", 1, "auto",
    none, false, 50⟩

/-- The arguments that `PHATE.__init__` forwards to
`AffinityMatcher.__init__` (the superclass itself is outside the given
sources; only the forwarded arguments are modelled). -/
structure AffinityMatcherArgs where
  affinity_in : NegPotentialAffinityArgs
  affinity_out : NegativeCostAffinityArgs
  n_components : ℤ
  loss_fn : String
  optimizer : String
  lr : ℚ
  min_grad_norm : ℚ
  max_iter : ℤ
  init : String
  init_scaling : ℚ
  device : String
  backend : Option Backend
  verbose : Bool
  check_interval : ℤ
deriving DecidableEq, Repr

/-- `PHATE.__init__`: reject the `"faiss"` backend before any affinity
object is built, otherwise wire `NegPotentialAffinity` (with
`K = n_neighbors`, diffusion time `t`, stabilizer `eps`) as input
affinity, `NegativeCostAffinity` as output affinity and `"l2_loss"` as
loss into the `AffinityMatcher` superclass. -/
def phateInit (p : PHATEParams) : Except String AffinityMatcherArgs :=
  if p.backend = some .faiss then
    .error "[TorchDR] ERROR : FAISS backend is not supported for PHATE."
  else
    .ok
      ⟨⟨p.backend, p.device, p.eps, p.t, p.n_neighbors⟩,
        ⟨p.backend, p.device⟩, p.n_components, "l2_loss", p.optimizer,
        p.lr, p.min_grad_norm, p.max_iter, p.init, p.init_scaling,
        p.device, p.backend, p.verbose, p.check_interval⟩

/-- The `AffinityMatcher` arguments produced by a default `PHATE`
construction. -/
def phateDefaultArgs : AffinityMatcherArgs :=
  ⟨⟨none, "auto", 1 / 100000, 5, 10⟩, ⟨none, "auto"⟩, 2, "l2_loss", "Adam",
    1, 1 / 10000000, 1000, "pca", 1, "auto", none, false, 50⟩

/-! ## Claim theorems -/

/-- C1: for every distance matrix and every `K` from `1` to `n - 1`, both
`SelfTuningAffinity` and `MAGICAffinity` set the fitted bandwidth
`sigma_[i]` to the exact K-th smallest entry of row `i` of the distance
matrix (1-indexed, duplicates and self-distance included). -/
theorem sigma_is_kth_smallest {n : ℕ} (C : Fin n → Fin n → ℚ) (K : ℤ)
    (dim? : Option NormDim) (h1 : 1 ≤ K) (h2 : K ≤ (n : ℤ) - 1) :
    (selfTuningFit C K dim?).map SelfTuningFitted.sigma_ =
      .ok (fun i => kthSmallest (rowList C i) K.toNat) ∧
    (magicFit C K).map Prod.fst =
      .ok (fun i => kthSmallest (rowList C i) K.toNat) := by
  have h := sigmaHat_eq_kthSmallest C K h1 (by omega)
  constructor
  · unfold selfTuningFit
    rw [h]
    cases dim? <;> rfl
  · unfold magicFit
    rw [h]
    rfl

/-- C1 witness: concrete evaluation on a `3 × 3` distance matrix with
`K = 2`. -/
theorem sigma_is_kth_smallest_witness :
    (selfTuningFit ![![0,2,1],![2,0,5],![1,5,0]] 2 (some .joint)).map
        SelfTuningFitted.sigma_ =
      .ok (fun i => kthSmallest (rowList ![![0,2,1],![2,0,5],![1,5,0]] i) 2) ∧
    (magicFit ![![0,2,1],![2,0,5],![1,5,0]] 2).map Prod.fst =
      .ok (fun i => kthSmallest (rowList ![![0,2,1],![2,0,5],![1,5,0]] i) 2) :=
  sigma_is_kth_smallest ![![0,2,1],![2,0,5],![1,5,0]] 2 (some .joint)
    (by decide) (by decide)

/-- C6: bandwidth estimation fails with `InvalidKError` inside the fit of
`SelfTuningAffinity` and of `MAGICAffinity` exactly when `K ≤ 0` or `K`
exceeds the number of columns; `K` is never clamped and no bandwidth is
produced in the failing case (the fit returns the error, not a value). -/
theorem invalidK_at_bandwidth_estimation {n : ℕ} (C : Fin n → Fin n → ℚ)
    (K : ℤ) (dim? : Option NormDim) :
    (selfTuningFit C K dim? = .error (.invalidK K n) ↔
      K ≤ 0 ∨ (n : ℤ) < K) ∧
    (magicFit C K = .error (.invalidK K n) ↔ K ≤ 0 ∨ (n : ℤ) < K) := by
  by_cases hK : 1 ≤ K ∧ K ≤ (n : ℤ)
  · unfold selfTuningFit magicFit sigmaHat kmin
    rw [if_pos hK]
    constructor
    · simp only [Except.map]
      constructor
      · intro hcon; exact absurd hcon (by simp)
      · intro hcon; omega
    · simp only [Except.map]
      constructor
      · intro hcon; exact absurd hcon (by simp)
      · intro hcon; omega
  · unfold selfTuningFit magicFit sigmaHat kmin
    rw [if_neg hK]
    have hko : K ≤ 0 ∨ (n : ℤ) < K := by omega
    exact ⟨⟨fun _ => hko, fun _ => rfl⟩, ⟨fun _ => hko, fun _ => rfl⟩⟩

/-- C2: for positive bandwidths, the raw self-tuning log-affinity has
entries `-C[i,j] / (σ_i σ_j)`, its exponential equals the direct
computation `exp(-C[i,j] / (σ_i σ_j))`, and it is symmetric whenever the
distance matrix is symmetric. -/
theorem selfTuning_kernel_formula {n : ℕ} (C : Fin n → Fin n → ℝ)
    (σ : Fin n → ℝ) (hpos : ∀ i, 0 < σ i) :
    (∀ i j, log_SelfTuning C σ i j = -C i j / (σ i * σ j)) ∧
    (∀ i j, Real.exp (log_SelfTuning C σ i j) =
      Real.exp (-C i j / (σ i * σ j))) ∧
    ((∀ i j, C i j = C j i) →
      ∀ i j, log_SelfTuning C σ i j = log_SelfTuning C σ j i) := by
  refine ⟨fun i j => rfl, fun i j => rfl, fun hsym i j => ?_⟩
  unfold log_SelfTuning
  rw [hsym i j, mul_comm]

/-- C2 witness: concrete evaluation on a symmetric `2 × 2` distance
matrix with bandwidths `(1, 2)`. -/
theorem selfTuning_kernel_formula_witness :
    Real.exp (log_SelfTuning (![![0,3],![3,0]] : Fin 2 → Fin 2 → ℝ)
        ![1,2] 0 1) =
      Real.exp (-(![![0,3],![3,0]] : Fin 2 → Fin 2 → ℝ) 0 1 /
        ((![1,2] : Fin 2 → ℝ) 0 * (![1,2] : Fin 2 → ℝ) 1)) ∧
    log_SelfTuning (![![0,3],![3,0]] : Fin 2 → Fin 2 → ℝ) ![1,2] 0 1 =
      log_SelfTuning (![![0,3],![3,0]] : Fin 2 → Fin 2 → ℝ) ![1,2] 1 0 := by
  have hpos : ∀ i, 0 < (![1,2] : Fin 2 → ℝ) i := by
    intro i; fin_cases i <;> norm_num
  have hsym : ∀ i j, (![![0,3],![3,0]] : Fin 2 → Fin 2 → ℝ) i j =
      (![![0,3],![3,0]] : Fin 2 → Fin 2 → ℝ) j i := by
    intro i j; fin_cases i <;> fin_cases j <;> norm_num
  exact ⟨(selfTuning_kernel_formula _ _ hpos).2.1 0 1,
    (selfTuning_kernel_formula _ _ hpos).2.2 hsym 0 1⟩

/-- C3: for every input whose fitted bandwidths are positive, the MAGIC
affinity computation equals the composition of the three reference steps:
exponentiate the row-sided kernel, average with the transpose, then
row-normalize. -/
theorem magic_three_steps {n : ℕ} (C : Fin n → Fin n → ℚ) (K : ℤ)
    (σq : Fin n → ℚ) (h : sigmaHat C K = .ok σq) (hpos : ∀ i, 0 < σq i) :
    magicFit C K =
      .ok (σq,
        rowNormalizeStep (symmetrizeStep (magicKernelStep (toR C)
          (vecToR σq)))) := by
  unfold magicFit
  rw [h]
  rfl

/-- C3 witness: concrete evaluation on a `2 × 2` distance matrix with
`K = 2`, whose fitted bandwidths are both `1`. -/
theorem magic_three_steps_witness :
    magicFit (![![0,1],![1,0]] : Fin 2 → Fin 2 → ℚ) 2 =
      .ok (fun _ => 1,
        rowNormalizeStep (symmetrizeStep (magicKernelStep
          (toR (![![0,1],![1,0]] : Fin 2 → Fin 2 → ℚ))
          (vecToR (fun _ => 1))))) := by
  have h : sigmaHat (![![0,1],![1,0]] : Fin 2 → Fin 2 → ℚ) 2 =
      .ok (fun _ => 1) := by
    unfold sigmaHat kmin
    rw [if_pos (by decide)]
    simp only [Except.map]
    congr 1
    funext i
    fin_cases i <;> decide
  exact magic_three_steps _ 2 _ h (fun i => by norm_num)

/-- C5: with a non-`None` normalization axis, `SelfTuningAffinity`
returns the raw log-affinity minus its log-sum-exp reduction, caching the
subtracted term as `log_normalization_`; with the default joint axes
`(0, 1)` the exponentials of the returned entries sum to `1`. -/
theorem selfTuning_normalization {n : ℕ} (C : Fin n → Fin n → ℚ) (K : ℤ)
    (σq : Fin n → ℚ) (d : NormDim) (h : sigmaHat C K = .ok σq)
    (hn : 0 < n) :
    selfTuningFit C K (some d) =
      .ok ⟨σq, some (logsumexp_red (selfTuningRaw C σq) d),
        fun i j => selfTuningRaw C σq i j -
          logsumexp_red (selfTuningRaw C σq) d i j⟩ ∧
    (∑ i, ∑ j, Real.exp (selfTuningRaw C σq i j -
      logsumexp_red (selfTuningRaw C σq) .joint i j)) = 1 := by
  constructor
  · unfold selfTuningFit
    rw [h]
    rfl
  · haveI : Nonempty (Fin n) := ⟨⟨0, hn⟩⟩
    set raw := selfTuningRaw C σq with hraw
    have hZ : 0 < ∑ s, ∑ t, Real.exp (raw s t) := by
      apply Finset.sum_pos (fun s _ => ?_) Finset.univ_nonempty
      exact Finset.sum_pos (fun t _ => Real.exp_pos _) Finset.univ_nonempty
    have hstep : ∀ i j : Fin n,
        Real.exp (raw i j - logsumexp_red raw .joint i j) =
          Real.exp (raw i j) / (∑ s, ∑ t, Real.exp (raw s t)) := by
      intro i j
      show Real.exp (raw i j - Real.log (∑ s, ∑ t, Real.exp (raw s t))) = _
      rw [Real.exp_sub, Real.exp_log hZ]
    calc (∑ i, ∑ j, Real.exp (raw i j - logsumexp_red raw .joint i j))
        = ∑ i, ∑ j, Real.exp (raw i j) /
            (∑ s, ∑ t, Real.exp (raw s t)) :=
          Finset.sum_congr rfl (fun i _ =>
            Finset.sum_congr rfl (fun j _ => hstep i j))
      _ = (∑ i, ∑ j, Real.exp (raw i j)) /
            (∑ s, ∑ t, Real.exp (raw s t)) := by
          rw [Finset.sum_div]
          exact Finset.sum_congr rfl (fun i _ => (Finset.sum_div _ _ _).symm)
      _ = 1 := div_self (ne_of_gt hZ)

/-- C5 witness: concrete evaluation on a `2 × 2` distance matrix with
`K = 2` and joint normalization. -/
theorem selfTuning_normalization_witness :
    selfTuningFit (![![0,2],![2,0]] : Fin 2 → Fin 2 → ℚ) 2 (some .joint) =
      .ok ⟨fun _ => 2,
        some (logsumexp_red
          (selfTuningRaw (![![0,2],![2,0]] : Fin 2 → Fin 2 → ℚ)
            (fun _ => 2)) .joint),
        fun i j =>
          selfTuningRaw (![![0,2],![2,0]] : Fin 2 → Fin 2 → ℚ)
              (fun _ => 2) i j -
            logsumexp_red (selfTuningRaw
              (![![0,2],![2,0]] : Fin 2 → Fin 2 → ℚ) (fun _ => 2))
              .joint i j⟩ ∧
    (∑ i, ∑ j, Real.exp
      (selfTuningRaw (![![0,2],![2,0]] : Fin 2 → Fin 2 → ℚ)
          (fun _ => 2) i j -
        logsumexp_red (selfTuningRaw
          (![![0,2],![2,0]] : Fin 2 → Fin 2 → ℚ) (fun _ => 2))
          .joint i j)) = 1 := by
  have h : sigmaHat (![![0,2],![2,0]] : Fin 2 → Fin 2 → ℚ) 2 =
      .ok (fun _ => 2) := by
    unfold sigmaHat kmin
    rw [if_pos (by decide)]
    simp only [Except.map]
    congr 1
    funext i
    fin_cases i <;> decide
  exact selfTuning_normalization _ 2 _ .joint h (by norm_num)

/-- C4: whenever the symmetrized kernel has positive row sums, every row
of the final MAGIC affinity sums to `1`; and the final matrix is in
general not symmetric: a concrete `3 × 3` input produces an affinity
matrix differing from its transpose. -/
theorem magic_row_stochastic_not_symmetric :
    (∀ (n : ℕ) (C : Fin n → Fin n → ℚ) (K : ℤ) (σq : Fin n → ℚ)
        (M : Fin n → Fin n → ℝ), magicFit C K = .ok (σq, M) →
      (∀ i, 0 < sum_red (symmetrizeStep (magicKernelStep (toR C)
        (vecToR σq))) i) →
      ∀ i, ∑ j, M i j = 1) ∧
    (∃ M : Fin 3 → Fin 3 → ℝ,
      (magicFit (![![0,1,2],![1,0,1],![2,1,0]] : Fin 3 → Fin 3 → ℚ)
          2).map Prod.snd = .ok M ∧
      M 0 1 ≠ M 1 0) := by
  constructor
  · intro n C K σq M hM hpos i
    cases hσ : sigmaHat C K with
    | error e =>
      unfold magicFit at hM
      rw [hσ] at hM
      exact Except.noConfusion hM
    | ok σ0 =>
      unfold magicFit at hM
      rw [hσ] at hM
      simp only [Except.map, Except.ok.injEq, Prod.mk.injEq] at hM
      obtain ⟨hσeq, hMeq⟩ := hM
      have hp := hpos i
      rw [← hσeq] at hp
      rw [← hMeq]
      show (∑ j, symmetrizeStep (magicKernelStep (toR C) (vecToR σ0)) i j /
          sum_red (symmetrizeStep (magicKernelStep (toR C) (vecToR σ0))) i)
        = 1
      rw [← Finset.sum_div]
      exact div_self (ne_of_gt hp)
  · have hσ : sigmaHat (![![0,1,2],![1,0,1],![2,1,0]] : Fin 3 → Fin 3 → ℚ)
        2 = .ok (fun _ => 1) := by
      unfold sigmaHat kmin
      rw [if_pos (by decide)]
      simp only [Except.map]
      congr 1
      funext i
      fin_cases i <;> decide
    refine ⟨rowNormalizeStep (symmetrizeStep (magicKernelStep
      (toR (![![0,1,2],![1,0,1],![2,1,0]] : Fin 3 → Fin 3 → ℚ))
      (vecToR (fun _ => 1)))), ?_, ?_⟩
    · unfold magicFit
      rw [hσ]
      rfl
    · have hne : Real.exp (-2 : ℝ) ≠ Real.exp (-1 : ℝ) := by
        rw [Ne, Real.exp_eq_exp]; norm_num
      simp only [rowNormalizeStep, symmetrizeStep, magicKernelStep, toR,
        vecToR, sum_red, Fin.sum_univ_three, Matrix.cons_val_zero,
        Matrix.cons_val_one, Matrix.cons_val_two, Matrix.head_cons,
        Matrix.vecHead, Matrix.vecTail]
      norm_num
      have hR0 : (0:ℝ) < 1 + Real.exp (-1) + Real.exp (-2) := by positivity
      have hR1 : (0:ℝ) < Real.exp (-1) + 1 + Real.exp (-1) := by positivity
      intro heq
      rw [div_eq_div_iff (ne_of_gt hR0) (ne_of_gt hR1)] at heq
      have hcancel : Real.exp (-1) + 1 + Real.exp (-1) =
          1 + Real.exp (-1) + Real.exp (-2) :=
        mul_left_cancel₀ (Real.exp_ne_zero _) heq
      have : Real.exp (-2 : ℝ) = Real.exp (-1 : ℝ) := by linarith
      exact hne this

/-- C4 witness: on a concrete `2 × 2` input with positive row sums, row
`0` of the MAGIC affinity sums to `1`. -/
theorem magic_row_stochastic_not_symmetric_witness :
    ∑ j, rowNormalizeStep (symmetrizeStep (magicKernelStep
      (toR (![![0,1],![1,0]] : Fin 2 → Fin 2 → ℚ))
      (vecToR (fun _ => 1)))) 0 j = 1 := by
  have hσ : sigmaHat (![![0,1],![1,0]] : Fin 2 → Fin 2 → ℚ) 2 =
      .ok (fun _ => 1) := by
    unfold sigmaHat kmin
    rw [if_pos (by decide)]
    simp only [Except.map]
    congr 1
    funext i
    fin_cases i <;> decide
  have hfit : magicFit (![![0,1],![1,0]] : Fin 2 → Fin 2 → ℚ) 2 =
      .ok (fun _ => 1, rowNormalizeStep (symmetrizeStep (magicKernelStep
        (toR (![![0,1],![1,0]] : Fin 2 → Fin 2 → ℚ))
        (vecToR (fun _ => 1))))) := by
    unfold magicFit
    rw [hσ]
    rfl
  exact magic_row_stochastic_not_symmetric.1 2 _ 2 _ _ hfit
    (fun i => Finset.sum_pos (fun t _ => by
      unfold symmetrizeStep magicKernelStep; positivity)
      Finset.univ_nonempty) 0

/-- C7 counterexample: on an input with duplicate points (rows `0` and
`1` coincide) and `K = 2`, the fitted bandwidth of row `0` is exactly
`0`, yet both affinity computations complete and return a matrix: no
`DegenerateBandwidthError` (or any error) is raised. -/
theorem degenerate_bandwidth_not_detected :
    (sigmaHat (![![0,0,5],![0,0,5],![5,5,0]] : Fin 3 → Fin 3 → ℚ) 2).map
        (fun σ => σ 0) = .ok 0 ∧
    (magicFit (![![0,0,5],![0,0,5],![5,5,0]] : Fin 3 → Fin 3 → ℚ) 2).isOk
      = true ∧
    (selfTuningFit (![![0,0,5],![0,0,5],![5,5,0]] : Fin 3 → Fin 3 → ℚ) 2
      (some .joint)).isOk = true := by
  refine ⟨by decide, ?_, ?_⟩
  · unfold magicFit sigmaHat kmin
    rw [if_pos (by decide)]
    rfl
  · unfold selfTuningFit sigmaHat kmin
    rw [if_pos (by decide)]
    rfl

/-- C7 amended: the kernels perform no degenerate-bandwidth detection:
for every in-range `K` both affinity computations complete and return a
matrix, even when some fitted bandwidth is `0` (the division is carried
out under the junk-value semantics of division by zero instead of an
error being raised). -/
theorem kernel_no_degenerate_check {n : ℕ} (C : Fin n → Fin n → ℚ)
    (K : ℤ) (dim? : Option NormDim) (h1 : 1 ≤ K) (h2 : K ≤ (n : ℤ)) :
    (magicFit C K).isOk = true ∧ (selfTuningFit C K dim?).isOk = true := by
  unfold magicFit selfTuningFit sigmaHat kmin
  rw [if_pos ⟨h1, h2⟩]
  exact ⟨rfl, rfl⟩

/-- C7 amended witness: the duplicate-point input with `σ_0 = 0` still
yields completed computations. -/
theorem kernel_no_degenerate_check_witness :
    (magicFit (![![0,0,5],![0,0,5],![5,5,0]] : Fin 3 → Fin 3 → ℚ) 2).isOk
      = true ∧
    (selfTuningFit (![![0,0,5],![0,0,5],![5,5,0]] : Fin 3 → Fin 3 → ℚ) 2
      (some .joint)).isOk = true :=
  kernel_no_degenerate_check ![![0,0,5],![0,0,5],![5,5,0]] 2 (some .joint)
    (by decide) (by decide)

/-- C9: with the diagonal of the distance matrix masked to `+∞` before
the affinity steps (the `zero_diag=True` policy) and positive bandwidths,
both the normalized self-tuning affinity and the final MAGIC affinity
have `P[i,i] = 0` for every `i`. -/
theorem zero_diag_gives_zero_diagonal {n : ℕ} (C : Fin n → Fin n → ℝ)
    (σ : Fin n → ℝ) (hσ : ∀ i, 0 < σ i) (i : Fin n) :
    selfTuningPE (maskDiagonal C) σ i i = 0 ∧
    magicPE (maskDiagonal C) σ i i = 0 := by
  have hdiag : maskDiagonal C i i = ⊤ := if_pos rfl
  constructor
  · unfold selfTuningPE log_SelfTuningE
    rw [hdiag]
    rfl
  · unfold magicPE log_MAGICE
    rw [hdiag]
    have h1 : expE (negDivE (⊤ : WithTop ℝ) (σ i)) = 0 := rfl
    rw [h1]
    norm_num

/-- C9 witness: concrete masked `2 × 2` input with unit bandwidths. -/
theorem zero_diag_gives_zero_diagonal_witness :
    selfTuningPE (maskDiagonal (![![0,1],![1,0]] : Fin 2 → Fin 2 → ℝ))
      (fun _ => 1) 0 0 = 0 ∧
    magicPE (maskDiagonal (![![0,1],![1,0]] : Fin 2 → Fin 2 → ℝ))
      (fun _ => 1) 0 0 = 0 :=
  zero_diag_gives_zero_diagonal _ (fun _ => 1) (fun _ => by norm_num) 0

/-- C8: `PHATE.__init__` fails during configuration, before any affinity
object is wired, exactly when the sparsity backend is `"faiss"`; with
backend `None` or `"keops"` construction proceeds. -/
theorem phate_rejects_faiss (p : PHATEParams) :
    (phateInit p).isOk = true ↔ p.backend ≠ some Backend.faiss := by
  unfold phateInit
  by_cases hb : p.backend = some Backend.faiss
  · rw [if_pos hb]
    exact ⟨fun hcon => Bool.noConfusion hcon, fun hne => absurd hb hne⟩
  · rw [if_neg hb]
    exact ⟨fun _ => hb, fun _ => rfl⟩

/-- C10: the default `PHATE` construction passes `init_scaling = 1.0`
(not the `1e-4` stated in the docstring) to `AffinityMatcher`, together
with the fixed wiring: `NegPotentialAffinity` with `K = n_neighbors`,
time `t` and stabilizer `eps` as input affinity, `NegativeCostAffinity`
as output affinity, and the `"l2_loss"` loss. -/
theorem phate_default_wiring :
    phateDefaults.init_scaling = 1 ∧
    phateDefaults.init_scaling ≠ 1 / 10000 ∧
    ∀ (p : PHATEParams) (a : AffinityMatcherArgs), phateInit p = .ok a →
      a.init_scaling = p.init_scaling ∧
      a.affinity_in = ⟨p.backend, p.device, p.eps, p.t, p.n_neighbors⟩ ∧
      a.affinity_out = ⟨p.backend, p.device⟩ ∧
      a.loss_fn = "l2_loss" := by
  refine ⟨rfl, by norm_num [phateDefaults], ?_⟩
  intro p a ha
  unfold phateInit at ha
  by_cases hb : p.backend = some Backend.faiss
  · rw [if_pos hb] at ha
    exact Except.noConfusion ha
  · rw [if_neg hb] at ha
    have h := Except.ok.inj ha
    rw [← h]
    exact ⟨rfl, rfl, rfl, rfl⟩

/-- C10 witness: the forwarded arguments of the default construction. -/
theorem phate_default_wiring_witness :
    phateDefaultArgs.init_scaling = phateDefaults.init_scaling ∧
    phateDefaultArgs.affinity_in =
      ⟨phateDefaults.backend, phateDefaults.device, phateDefaults.eps,
        phateDefaults.t, phateDefaults.n_neighbors⟩ ∧
    phateDefaultArgs.affinity_out =
      ⟨phateDefaults.backend, phateDefaults.device⟩ ∧
    phateDefaultArgs.loss_fn = "l2_loss" :=
  phate_default_wiring.2.2 phateDefaults phateDefaultArgs rfl

end TorchDR
